import Mathlib

/-!
Shallow embedding of the batched timer facility in src/nxt_timer.c
(nxt_timer_add, nxt_timer_disable, nxt_timer_delete, nxt_timer_change,
nxt_timer_changes_commit, nxt_timer_find, nxt_timer_expire), together
with spec-modelled definitions for the parts of the repository that live
in headers or other files not present under src/ (nxt_msec_diff,
NXT_INFINITE_MSEC, the in_tree flag macros and the red-black tree).
Machine msec values (nxt_msec_t, a 32-bit unsigned counter) are Nats
reduced mod 2^32; the signed 32-bit difference is an Int.
-/

/-- Reduction of a Nat to a 32-bit unsigned value, the range of nxt_msec_t. -/
def u32 (n : Nat) : Nat := n % 4294967296

/-- Modelled from the spec: nxt_msec_diff (defined in a header that is not
under src/) is the signed wraparound-aware subtraction of two 32-bit msec
counters: the uint32 difference m1 - m2 reinterpreted as a signed int32.
The spec: "comparisons MUST use signed wraparound-aware subtraction, never
unsigned lt", and the comment in nxt_timer_rbtree_compare: timer values
"overflow every 49 days if nxt_msec_t is stored in 32 bits. This signed
comparison takes into account that overflow." -/
def nxt_msec_diff (m1 m2 : Nat) : Int :=
  let d := (u32 m1 + (4294967296 - u32 m2)) % 4294967296
  if d < 2147483648 then (d : Int) else (d : Int) - 4294967296

/-- Modelled from the spec: the "infinite"/unbounded-wait sentinel
NXT_INFINITE_MSEC, ((nxt_msec_t) -1) in the missing header. -/
def NXT_INFINITE_MSEC : Nat := 4294967295

/-- Timer states NXT_TIMER_DISABLED, NXT_TIMER_WAITING, NXT_TIMER_ENQUEUED
and NXT_TIMER_CHANGING of src/nxt_timer.c (the enum itself is declared in a
header not under src/; the spec names the same four states). -/
inductive TimerState where
  | disabled
  | waiting
  | enqueued
  | changing
deriving DecidableEq

/-- Change operations NXT_TIMER_ADD, NXT_TIMER_DISABLE, NXT_TIMER_DELETE. -/
inductive TimerOperation where
  | add
  | disable
  | delete
deriving DecidableEq

/-- One nxt_timer_t as used by src/nxt_timer.c: the deadline (time), the
coalescing precision, the state and the in_tree flag (the flag is accessed
through nxt_timer_is_in_tree / nxt_timer_in_tree_set /
nxt_timer_in_tree_clear, modelled from the spec as a boolean since the
macros live in a header not under src/). -/
structure Timer where
  time : Nat
  precision : Nat
  state : TimerState
  in_tree : Bool
deriving DecidableEq

/-- Timers are identified by stable ids; the C code works with pointers to
client-owned intrusive nxt_timer_t structures. -/
abbrev TimerId := Nat

/-- One nxt_timer_change_t record of the batch. -/
structure ChangeRecord where
  change : TimerOperation
  time : Nat
  timer : TimerId
deriving DecidableEq

/-- The nxt_timers_t engine state of src/nxt_timer.c: the timers map (the
client-owned timer structures), the rbtree as its in-order id sequence, the
bounded change batch (changes / nchanges is the list length / mchanges its
capacity), the logical now, the cached minimum, plus the list of timers
submitted to the external work-dispatch queue by nxt_timer_expire. -/
structure Engine where
  timers : TimerId → Timer
  tree : List TimerId
  changes : List ChangeRecord
  mchanges : Nat
  now : Nat
  minimum : Nat
  workQueue : List TimerId

/-- Pointwise update of a single timer structure. -/
def setTimer (e : Engine) (id : TimerId) (t : Timer) : Engine :=
  { e with timers := fun i => if i = id then t else e.timers i }

/-- The rbtree comparison nxt_timer_rbtree_compare of src/nxt_timer.c:
signed wraparound-aware difference of the two deadlines. -/
def nxt_timer_rbtree_compare (timer1 timer2 : Timer) : Int :=
  nxt_msec_diff timer1.time timer2.time

/-- Modelled from the spec: nxt_rbtree_insert (nxt_rbtree.c is not under
src/). The Ordered Timer Index is kept as its in-order sequence; insertion
descends right on a non-negative comparison, so a new node is placed after
every node it does not compare strictly below: the new id goes before the
first id it compares strictly less than. -/
def treeInsert (timers : TimerId → Timer) : List TimerId → TimerId → List TimerId
  | [], id => [id]
  | x :: xs, id =>
      if nxt_timer_rbtree_compare (timers id) (timers x) < 0 then
        id :: x :: xs
      else
        x :: treeInsert timers xs id

/-- Application of one change record inside nxt_timer_changes_commit
(src/nxt_timer.c lines 180-234): the switch over ch->change, with the
final timer->state = state assignment folded into each case. -/
def nxt_timer_change_apply (e : Engine) (ch : ChangeRecord) : Engine :=
  let timer := e.timers ch.timer
  match ch.change with
  | TimerOperation.add =>
      if timer.in_tree = true ∧
          (nxt_msec_diff ch.time timer.time).natAbs < timer.precision then
        setTimer e ch.timer { timer with state := TimerState.waiting }
      else
        let e1 := if timer.in_tree = true then
            { e with tree := e.tree.erase ch.timer }
          else e
        let e2 := setTimer e1 ch.timer
          { timer with time := ch.time, in_tree := true,
                       state := TimerState.waiting }
        { e2 with tree := treeInsert e2.timers e2.tree ch.timer }
  | TimerOperation.delete =>
      if timer.in_tree = true then
        setTimer { e with tree := e.tree.erase ch.timer } ch.timer
          { timer with in_tree := false, state := TimerState.disabled }
      else
        setTimer e ch.timer { timer with state := TimerState.disabled }
  | TimerOperation.disable =>
      setTimer e ch.timer { timer with state := TimerState.disabled }

/-- nxt_timer_changes_commit (src/nxt_timer.c lines 164-238): replay the
batch in insertion order, then truncate it to empty. -/
def nxt_timer_changes_commit (e : Engine) : Engine :=
  { e.changes.foldl nxt_timer_change_apply e with changes := [] }

/-- nxt_timer_change (src/nxt_timer.c lines 137-161): flush the batch if
it is full, mark the timer Changing, append the record. -/
def nxt_timer_change (e : Engine) (id : TimerId) (change : TimerOperation)
    (time : Nat) : Engine :=
  let e1 := if e.mchanges ≤ e.changes.length then nxt_timer_changes_commit e
            else e
  let e2 := setTimer e1 id { e1.timers id with state := TimerState.changing }
  { e2 with changes := e2.changes ++ [⟨change, time, id⟩] }

/-- nxt_timer_add (src/nxt_timer.c lines 65-98). -/
def nxt_timer_add (e : Engine) (id : TimerId) (timeout : Nat) : Engine :=
  let time := u32 (e.now + timeout)
  let timer := e.timers id
  if timer.state ≠ TimerState.changing ∧ timer.in_tree = true ∧
      (nxt_msec_diff time timer.time).natAbs < timer.precision then
    setTimer e id { timer with state := TimerState.waiting }
  else
    nxt_timer_change e id TimerOperation.add time

/-- nxt_timer_disable (src/nxt_timer.c lines 101-112). -/
def nxt_timer_disable (e : Engine) (id : TimerId) : Engine :=
  if (e.timers id).state ≠ TimerState.changing then
    setTimer e id { e.timers id with state := TimerState.disabled }
  else
    nxt_timer_change e id TimerOperation.disable 0

/-- nxt_timer_delete (src/nxt_timer.c lines 115-134); the boolean is the
returned "pending" value. -/
def nxt_timer_delete (e : Engine) (id : TimerId) : Engine × Bool :=
  let timer := e.timers id
  if timer.in_tree = true ∨ timer.state = TimerState.changing then
    (nxt_timer_change e id TimerOperation.delete 0, true)
  else
    (setTimer e id { timer with state := TimerState.disabled },
     decide (timer.state = TimerState.enqueued))

/-- The successor walk of nxt_timer_find (src/nxt_timer.c lines 259-289)
over the in-order sequence of the tree: skip Disabled entries; on the
first non-Disabled entry cache its deadline as the minimum and return
max(deadline - now, 0); if the walk exhausts the tree, cache now + one
day and return the infinite sentinel. -/
def findLoop (e : Engine) : List TimerId → Engine × Nat
  | [] =>
      ({ e with minimum := u32 (e.now + 86400000) }, NXT_INFINITE_MSEC)
  | id :: rest =>
      let timer := e.timers id
      if timer.state ≠ TimerState.disabled then
        ({ e with minimum := timer.time },
         (max (nxt_msec_diff timer.time e.now) 0).toNat)
      else
        findLoop e rest

/-- nxt_timer_find (src/nxt_timer.c lines 241-290): commit a non-empty
batch, then walk the tree from the minimum. -/
def nxt_timer_find (e : Engine) : Engine × Nat :=
  let e1 := if e.changes.length ≠ 0 then nxt_timer_changes_commit e else e
  findLoop e1 e1.tree

/-- The expiry walk of nxt_timer_expire (src/nxt_timer.c lines 314-339):
unlink each due entry and clear in_tree; a non-Disabled due entry becomes
Enqueued and is submitted to the work-dispatch queue; stop at the first
entry whose deadline is still in the future. -/
def expireWalk (e : Engine) : List TimerId → Engine
  | [] => { e with tree := [] }
  | id :: rest =>
      let timer := e.timers id
      if 0 < nxt_msec_diff timer.time e.now then
        { e with tree := id :: rest }
      else
        let e1 := setTimer { e with tree := rest } id
          { timer with in_tree := false,
                       state := if timer.state ≠ TimerState.disabled then
                           TimerState.enqueued
                         else timer.state }
        let e2 := if timer.state ≠ TimerState.disabled then
            { e1 with workQueue := e1.workQueue ++ [id] }
          else e1
        expireWalk e2 rest

/-- nxt_timer_expire (src/nxt_timer.c lines 293-340): set now; return at
once if the cached minimum is still in the future; otherwise walk the tree
from the minimum. -/
def nxt_timer_expire (e : Engine) (now : Nat) : Engine :=
  let e1 : Engine := { e with now := now }
  if 0 < nxt_msec_diff e1.minimum e1.now then e1
  else expireWalk e1 e1.tree

/-- A timer is due: its deadline is at or before the engine's now under the
signed wraparound-aware comparison. -/
def dueBy (e : Engine) (id : TimerId) : Bool :=
  decide (nxt_msec_diff (e.timers id).time e.now ≤ 0)

/-- A timer whose state is not Disabled. -/
def activeTimer (e : Engine) (id : TimerId) : Bool :=
  decide ((e.timers id).state ≠ TimerState.disabled)

/-- The effect of the expiry walk on one due timer structure: unlink
(in_tree cleared) and, unless Disabled, state becomes Enqueued. -/
def expireMark (t : Timer) : Timer :=
  { t with in_tree := false,
           state := if t.state ≠ TimerState.disabled then TimerState.enqueued
                    else t.state }

/-- One iteration of the expiry walk on a due head entry: unlink it, mark
it, and submit it to the work-dispatch queue unless it was Disabled. -/
def expireStep (e : Engine) (id : TimerId) (rest : List TimerId) : Engine :=
  let e1 := setTimer { e with tree := rest } id (expireMark (e.timers id))
  if (e.timers id).state ≠ TimerState.disabled then
    { e1 with workQueue := e1.workQueue ++ [id] }
  else e1

/-- The membership invariant: the in-order tree sequence has no duplicate
and a timer is in the Ordered Timer Index iff its in_tree flag is set. -/
def EngineWF (e : Engine) : Prop :=
  e.tree.Nodup ∧ ∀ id, id ∈ e.tree ↔ (e.timers id).in_tree = true

/-- A timer that is logically scheduled: its in_tree flag is set, or an Add
record for it is pending in the batch. -/
def Scheduled (id : TimerId) (e : Engine) : Prop :=
  (e.timers id).in_tree = true ∨
    ∃ t, (⟨TimerOperation.add, t, id⟩ : ChangeRecord) ∈ e.changes

/-- A sequence of Add operations, one per listed timer. -/
def addFold (tau : TimerId → Nat) (ids : List TimerId) (e : Engine) : Engine :=
  ids.foldl (fun acc j => nxt_timer_add acc j (tau j)) e

/-- A timer structure as created by a client: Disabled and not in the tree. -/
def freshTimer : Timer := ⟨0, 0, TimerState.disabled, false⟩

/-- An engine with a single committed timer 0, deadline 100, precision 10. -/
def oneTimerEngine : Engine :=
  { timers := fun i => if i = 0 then ⟨100, 10, TimerState.waiting, true⟩
              else freshTimer,
    tree := [0], changes := [], mchanges := 10,
    now := 0, minimum := 100, workQueue := [] }

/-- An engine with a pending Add record for timer 1 in the batch and a due
committed timer 0. -/
def eC4 : Engine :=
  { timers := fun i => if i = 0 then ⟨100, 10, TimerState.waiting, true⟩
              else freshTimer,
    tree := [0], changes := [⟨TimerOperation.add, 500, 1⟩], mchanges := 10,
    now := 100, minimum := 100, workQueue := [] }

/-- An engine at now = 5000 whose timer 0 sits in the tree with the stale
deadline 100 from an earlier commit, with minimum cached at 100. -/
def eC5 : Engine :=
  { timers := fun i => if i = 0 then ⟨100, 10, TimerState.waiting, true⟩
              else freshTimer,
    tree := [0], changes := [], mchanges := 10,
    now := 5000, minimum := 100, workQueue := [] }

/-- An engine at now = 0 whose timer 0 is committed at deadline 105 with
precision 10. -/
def eC6 : Engine :=
  { timers := fun i => if i = 0 then ⟨105, 10, TimerState.waiting, true⟩
              else freshTimer,
    tree := [0], changes := [], mchanges := 10,
    now := 0, minimum := 0, workQueue := [] }

/-- The timer deadline max_value - 1 of the wraparound scenario. -/
def timerA7 : Timer := ⟨4294967295 - 1, 0, TimerState.waiting, true⟩

/-- The timer deadline max_value + 5, wrapped around to a small value. -/
def timerB7 : Timer := ⟨u32 (4294967295 + 5), 0, TimerState.waiting, true⟩

/-- Timer map holding the two wraparound-scenario timers as ids 0 and 1. -/
def timersC7 : TimerId → Timer := fun i => if i = 0 then timerA7 else timerB7

/-- An empty engine with batch capacity 1, for the capacity scenario. -/
def eW9 : Engine :=
  { timers := fun _ => freshTimer, tree := [], changes := [], mchanges := 1,
    now := 0, minimum := 0, workQueue := [] }

/-! Basic facts about the engine operations. -/

theorem setTimer_timers (e : Engine) (id : TimerId) (t : Timer) (i : TimerId) :
    (setTimer e id t).timers i = if i = id then t else e.timers i := rfl

@[simp]
theorem setTimer_timers_self (e : Engine) (id : TimerId) (t : Timer) :
    (setTimer e id t).timers id = t := by
  simp [setTimer]

theorem setTimer_timers_ne (e : Engine) (id : TimerId) (t : Timer) (i : TimerId)
    (h : i ≠ id) : (setTimer e id t).timers i = e.timers i := by
  simp [setTimer, h]

@[simp]
theorem setTimer_tree (e : Engine) (id : TimerId) (t : Timer) :
    (setTimer e id t).tree = e.tree := rfl

@[simp]
theorem setTimer_changes (e : Engine) (id : TimerId) (t : Timer) :
    (setTimer e id t).changes = e.changes := rfl

@[simp]
theorem setTimer_now (e : Engine) (id : TimerId) (t : Timer) :
    (setTimer e id t).now = e.now := rfl

@[simp]
theorem setTimer_minimum (e : Engine) (id : TimerId) (t : Timer) :
    (setTimer e id t).minimum = e.minimum := rfl

@[simp]
theorem setTimer_workQueue (e : Engine) (id : TimerId) (t : Timer) :
    (setTimer e id t).workQueue = e.workQueue := rfl

@[simp]
theorem setTimer_mchanges (e : Engine) (id : TimerId) (t : Timer) :
    (setTimer e id t).mchanges = e.mchanges := rfl

@[simp]
theorem commit_changes (e : Engine) :
    (nxt_timer_changes_commit e).changes = [] := rfl

theorem commit_of_empty (e : Engine) (h : e.changes = []) :
    nxt_timer_changes_commit e = e := by
  cases e with
  | mk timers tree changes mchanges now minimum workQueue =>
      simp only at h
      subst h
      rfl

theorem change_changes (e : Engine) (id : TimerId) (op : TimerOperation)
    (t0 : Nat) :
    (nxt_timer_change e id op t0).changes =
      (if e.mchanges ≤ e.changes.length then nxt_timer_changes_commit e
       else e).changes ++ [⟨op, t0, id⟩] := by
  simp only [nxt_timer_change, setTimer_changes]

/-! Claim C7: wraparound-aware ordering of the tree comparison. -/

/-- C7: the tree ordering comparison is the signed wraparound-aware
subtraction of the two deadlines, not an unsigned less-than; in particular
for deadline A = max_value - 1 and deadline B = max_value + 5 (wrapped to a
small value) A is ordered before B, even though as unsigned values B's
deadline is the smaller one: inserting either timer relative to the other
places A first in the in-order sequence. -/
theorem c7_wraparound_ordering :
    (∀ t1 t2 : Timer,
      nxt_timer_rbtree_compare t1 t2 = nxt_msec_diff t1.time t2.time) ∧
    nxt_timer_rbtree_compare timerA7 timerB7 < 0 ∧
    0 < nxt_timer_rbtree_compare timerB7 timerA7 ∧
    timerB7.time < timerA7.time ∧
    treeInsert timersC7 [0] 1 = [0, 1] ∧
    treeInsert timersC7 [1] 0 = [0, 1] :=
  ⟨fun _ _ => rfl, by decide, by decide, by decide, by decide, by decide⟩

/-! Claim C8: the Delete contract. -/

/-- C8: if the timer is in the tree or Changing, Delete appends a
{Delete, timer} change record (through nxt_timer_change, which may first
flush a full batch) and returns true; otherwise it returns true exactly
when the state was Enqueued, sets the state to Disabled, and touches
neither the batch nor the tree. -/
theorem c8_delete_contract (e : Engine) (id : TimerId) :
    ((e.timers id).in_tree = true ∨ (e.timers id).state = TimerState.changing →
      (nxt_timer_delete e id).2 = true ∧
      (nxt_timer_delete e id).1 = nxt_timer_change e id TimerOperation.delete 0 ∧
      (nxt_timer_delete e id).1.changes =
        (if e.mchanges ≤ e.changes.length then nxt_timer_changes_commit e
         else e).changes ++ [⟨TimerOperation.delete, 0, id⟩]) ∧
    (¬ ((e.timers id).in_tree = true ∨
        (e.timers id).state = TimerState.changing) →
      (nxt_timer_delete e id).2 = decide ((e.timers id).state = TimerState.enqueued) ∧
      (nxt_timer_delete e id).1 =
        setTimer e id { e.timers id with state := TimerState.disabled } ∧
      (nxt_timer_delete e id).1.changes = e.changes ∧
      (nxt_timer_delete e id).1.tree = e.tree ∧
      ((nxt_timer_delete e id).1.timers id).state = TimerState.disabled) := by
  constructor
  · intro h
    refine ⟨?_, ?_, ?_⟩
    · simp [nxt_timer_delete, h]
    · simp [nxt_timer_delete, h]
    · simp [nxt_timer_delete, h, change_changes]
  · intro h
    refine ⟨?_, ?_, ?_, ?_, ?_⟩
    · simp [nxt_timer_delete, h]
    · simp [nxt_timer_delete, h]
    · simp [nxt_timer_delete, h]
    · simp [nxt_timer_delete, h]
    · simp [nxt_timer_delete, h]

/-- C8 witness: a timer that is neither in the tree nor Changing but is
Enqueued yields true and ends Disabled. -/
theorem c8_delete_contract_witness :
    ¬ (((⟨fun _ => ⟨0, 0, TimerState.enqueued, false⟩, [], [], 10, 0, 0, []⟩ :
          Engine).timers 0).in_tree = true ∨
       ((⟨fun _ => ⟨0, 0, TimerState.enqueued, false⟩, [], [], 10, 0, 0, []⟩ :
          Engine).timers 0).state = TimerState.changing) ∧
    (nxt_timer_delete
      (⟨fun _ => ⟨0, 0, TimerState.enqueued, false⟩, [], [], 10, 0, 0, []⟩ :
        Engine) 0).2 = true := by
  refine ⟨by decide, ?_⟩
  have h := (c8_delete_contract
    (⟨fun _ => ⟨0, 0, TimerState.enqueued, false⟩, [], [], 10, 0, 0, []⟩ :
      Engine) 0).2 (by decide)
  rw [h.1]
  decide

/-! Claims C4, C5, C6: counterexamples. -/

/-- C4 counterexample: nxt_timer_expire is not a commit point. On an engine
whose batch still holds a pending Add record and whose cached minimum is
due, Expire proceeds to walk the index (it unlinks and enqueues timer 0)
while the batch is still non-empty, and it leaves the batch untouched. -/
theorem c4_commit_points_counterexample :
    eC4.changes ≠ [] ∧
    (nxt_timer_expire eC4 150).workQueue = [0] ∧
    (nxt_timer_expire eC4 150).changes = eC4.changes := by
  refine ⟨by decide, by decide, by decide⟩

/-- C5 counterexample: timer 0 sits in the tree with the stale due deadline
100; Add(0, 0) at now = 5000 differs from it by more than the precision, so
it only queues a change record and marks the timer Changing; Disable(0)
then also only queues a record; Expire, which never commits the batch,
still unlinks the stale entry and, since its state Changing is not
Disabled, enqueues timer 0 on the work-dispatch queue. -/
theorem c5_disable_then_fire_counterexample :
    eC5.workQueue = [] ∧
    (nxt_timer_expire (nxt_timer_disable (nxt_timer_add eC5 0 0) 0)
      5000).workQueue = [0] := by
  refine ⟨by decide, by decide⟩

/-- C6 counterexample: with timer 0 committed at deadline 105 and precision
10 at now = 0, Add(0, 110) is coalesced by the fast path (keeping deadline
105), but Add(0, 115) - although 115 differs from 110 by only 5 < 10 -
differs from the kept deadline 105 by 10, is not coalesced, and after the
commit the effective deadline is 115, not the deadline produced by the
first Add. -/
theorem c6_coalescing_counterexample :
    (nxt_msec_diff 115 110).natAbs < (eC6.timers 0).precision ∧
    ((nxt_timer_add eC6 0 110).timers 0).time = 105 ∧
    ((nxt_timer_changes_commit
        (nxt_timer_add (nxt_timer_add eC6 0 110) 0 115)).timers 0).time = 115 ∧
    ((nxt_timer_changes_commit
        (nxt_timer_add (nxt_timer_add eC6 0 110) 0 115)).timers 0).time ≠
      ((nxt_timer_add eC6 0 110).timers 0).time := by
  refine ⟨by decide, by decide, by decide, by decide⟩

/-! Characterization of the find walk. -/

theorem findLoop_spec (e : Engine) (l : List TimerId) :
    (l.find? (activeTimer e) = none →
      findLoop e l =
        ({ e with minimum := u32 (e.now + 86400000) }, NXT_INFINITE_MSEC)) ∧
    ∀ id, l.find? (activeTimer e) = some id →
      findLoop e l =
        ({ e with minimum := (e.timers id).time },
         (max (nxt_msec_diff (e.timers id).time e.now) 0).toNat) := by
  induction l with
  | nil => exact ⟨fun _ => rfl, fun id h => by simp at h⟩
  | cons id0 rest ih =>
      by_cases h0 : activeTimer e id0 = true
      · constructor
        · intro h
          rw [List.find?_cons_of_pos _ h0] at h
          exact absurd h (by simp)
        · intro id h
          rw [List.find?_cons_of_pos _ h0] at h
          have hid : id0 = id := by simpa using h
          subst hid
          have hstate : (e.timers id0).state ≠ TimerState.disabled := by
            simpa [activeTimer] using h0
          simp [findLoop, hstate]
      · have hstate : ¬ (e.timers id0).state ≠ TimerState.disabled := by
          simpa [activeTimer] using h0
        have hstep : findLoop e (id0 :: rest) = findLoop e rest := by
          simp [findLoop, hstate]
        constructor
        · intro h
          rw [List.find?_cons_of_neg _ h0] at h
          rw [hstep]
          exact ih.1 h
        · intro id h
          rw [List.find?_cons_of_neg _ h0] at h
          rw [hstep]
          exact ih.2 id h

/-! Characterization of the expiry walk. -/

theorem expireMark_time (t : Timer) : (expireMark t).time = t.time := rfl

theorem expireMark_in_tree (t : Timer) : (expireMark t).in_tree = false := rfl

theorem expireMark_idem (t : Timer) : expireMark (expireMark t) = expireMark t := by
  cases t with
  | mk time precision state flag => cases state <;> rfl

theorem expireMark_active (t : Timer) :
    (expireMark t).state ≠ TimerState.disabled ↔ t.state ≠ TimerState.disabled := by
  cases t with
  | mk time precision state flag => cases state <;> simp [expireMark]

theorem expireWalk_cons_future (e : Engine) (id0 : TimerId)
    (rest : List TimerId) (h : 0 < nxt_msec_diff (e.timers id0).time e.now) :
    expireWalk e (id0 :: rest) = { e with tree := id0 :: rest } := by
  simp [expireWalk, h]

theorem expireWalk_cons_due (e : Engine) (id0 : TimerId) (rest : List TimerId)
    (h : ¬ 0 < nxt_msec_diff (e.timers id0).time e.now) :
    expireWalk e (id0 :: rest) = expireWalk (expireStep e id0 rest) rest := by
  simp only [expireWalk, expireStep, expireMark, if_neg h]

theorem expireStep_timers (e : Engine) (id : TimerId) (rest : List TimerId) :
    (expireStep e id rest).timers =
      fun x => if x = id then expireMark (e.timers id) else e.timers x := by
  unfold expireStep
  split <;> rfl

theorem expireStep_changes (e : Engine) (id : TimerId) (rest : List TimerId) :
    (expireStep e id rest).changes = e.changes := by
  unfold expireStep
  split <;> rfl

theorem expireStep_now (e : Engine) (id : TimerId) (rest : List TimerId) :
    (expireStep e id rest).now = e.now := by
  unfold expireStep
  split <;> rfl

theorem expireStep_minimum (e : Engine) (id : TimerId) (rest : List TimerId) :
    (expireStep e id rest).minimum = e.minimum := by
  unfold expireStep
  split <;> rfl

theorem expireStep_mchanges (e : Engine) (id : TimerId) (rest : List TimerId) :
    (expireStep e id rest).mchanges = e.mchanges := by
  unfold expireStep
  split <;> rfl

theorem expireStep_workQueue (e : Engine) (id : TimerId) (rest : List TimerId) :
    (expireStep e id rest).workQueue =
      e.workQueue ++ (if activeTimer e id = true then [id] else []) := by
  unfold expireStep
  by_cases h : (e.timers id).state ≠ TimerState.disabled
  · have ha : activeTimer e id = true := by
      simp [activeTimer]
      exact h
    rw [if_pos h, if_pos ha]
    rfl
  · have ha : ¬ activeTimer e id = true := by
      simp [activeTimer]
      simpa using h
    rw [if_neg h, if_neg ha]
    simp

theorem expireWalk_spec (l : List TimerId) : ∀ e : Engine,
    (expireWalk e l).tree = l.dropWhile (dueBy e) ∧
    (expireWalk e l).workQueue =
      e.workQueue ++ (l.takeWhile (dueBy e)).filter (activeTimer e) ∧
    (expireWalk e l).changes = e.changes ∧
    (expireWalk e l).now = e.now ∧
    (expireWalk e l).minimum = e.minimum ∧
    (expireWalk e l).mchanges = e.mchanges ∧
    ∀ id, (expireWalk e l).timers id =
      if id ∈ l.takeWhile (dueBy e) then expireMark (e.timers id)
      else e.timers id := by
  induction l with
  | nil =>
      intro e
      exact ⟨rfl, by simp [expireWalk], rfl, rfl, rfl, rfl, fun id => by
        simp [expireWalk]⟩
  | cons id0 rest ih =>
      intro e
      by_cases hdue : dueBy e id0 = true
      case neg =>
        have hgt : 0 < nxt_msec_diff (e.timers id0).time e.now := by
          simp [dueBy] at hdue
          omega
        rw [expireWalk_cons_future e id0 rest hgt]
        refine ⟨?_, ?_, rfl, rfl, rfl, rfl, ?_⟩
        · rw [List.dropWhile_cons_of_neg hdue]
        · rw [List.takeWhile_cons_of_neg hdue]
          simp
        · intro id
          rw [List.takeWhile_cons_of_neg hdue]
          simp
      case pos =>
        have hle : nxt_msec_diff (e.timers id0).time e.now ≤ 0 := by
          simpa [dueBy] using hdue
        have hngt : ¬ 0 < nxt_msec_diff (e.timers id0).time e.now := by omega
        rw [expireWalk_cons_due e id0 rest hngt]
        have hT := expireStep_timers e id0 rest
        have hdueT : dueBy (expireStep e id0 rest) = dueBy e := by
          funext x
          by_cases hx : x = id0 <;>
            simp [dueBy, hT, hx, expireMark_time, expireStep_now]
        have hactT : activeTimer (expireStep e id0 rest) = activeTimer e := by
          funext x
          by_cases hx : x = id0
          · subst hx
            simp only [activeTimer, hT, if_pos rfl]
            rw [decide_eq_decide]
            exact expireMark_active (e.timers x)
          · simp [activeTimer, hT, hx]
        obtain ⟨ihtree, ihwq, ihch, ihnow, ihmin, ihm, ihtimers⟩ :=
          ih (expireStep e id0 rest)
        refine ⟨?_, ?_, ?_, ?_, ?_, ?_, ?_⟩
        · rw [ihtree, hdueT, List.dropWhile_cons_of_pos hdue]
        · rw [ihwq, hdueT, hactT, expireStep_workQueue,
            List.takeWhile_cons_of_pos hdue, List.filter_cons]
          by_cases hact : activeTimer e id0 = true <;> simp [hact]
        · rw [ihch, expireStep_changes]
        · rw [ihnow, expireStep_now]
        · rw [ihmin, expireStep_minimum]
        · rw [ihm, expireStep_mchanges]
        · intro id
          rw [ihtimers id, hdueT, List.takeWhile_cons_of_pos hdue]
          by_cases hx : id = id0
          · subst hx
            by_cases hmem : id ∈ List.takeWhile (dueBy e) rest <;>
              simp [hT, hmem, expireMark_idem]
          · simp [hT, hx]

/-! Projections preserved by commit and the public operations. -/

theorem apply_proj (e : Engine) (r : ChangeRecord) :
    (nxt_timer_change_apply e r).now = e.now ∧
    (nxt_timer_change_apply e r).minimum = e.minimum ∧
    (nxt_timer_change_apply e r).workQueue = e.workQueue ∧
    (nxt_timer_change_apply e r).mchanges = e.mchanges ∧
    (nxt_timer_change_apply e r).changes = e.changes := by
  obtain ⟨op, t0, i⟩ := r
  cases op
  case add =>
    by_cases h1 : (e.timers i).in_tree = true ∧
        (nxt_msec_diff t0 (e.timers i).time).natAbs < (e.timers i).precision
    · simp [nxt_timer_change_apply, h1]
    · by_cases h2 : (e.timers i).in_tree = true
      · have h3 : ¬ (nxt_msec_diff t0 (e.timers i).time).natAbs <
            (e.timers i).precision := fun hc => h1 ⟨h2, hc⟩
        simp [nxt_timer_change_apply, h1, h2, h3]
      · simp [nxt_timer_change_apply, h1, h2]
  case delete =>
    by_cases h2 : (e.timers i).in_tree = true <;>
      simp [nxt_timer_change_apply, h2]
  case disable => simp [nxt_timer_change_apply]

theorem foldl_apply_proj (rs : List ChangeRecord) : ∀ e : Engine,
    (rs.foldl nxt_timer_change_apply e).now = e.now ∧
    (rs.foldl nxt_timer_change_apply e).minimum = e.minimum ∧
    (rs.foldl nxt_timer_change_apply e).workQueue = e.workQueue ∧
    (rs.foldl nxt_timer_change_apply e).mchanges = e.mchanges := by
  induction rs with
  | nil => exact fun e => ⟨rfl, rfl, rfl, rfl⟩
  | cons r rs ih =>
      intro e
      obtain ⟨a, b, c, d⟩ := ih (nxt_timer_change_apply e r)
      obtain ⟨a', b', c', d', _⟩ := apply_proj e r
      exact ⟨a.trans a', b.trans b', c.trans c', d.trans d'⟩

theorem commit_proj (e : Engine) :
    (nxt_timer_changes_commit e).now = e.now ∧
    (nxt_timer_changes_commit e).minimum = e.minimum ∧
    (nxt_timer_changes_commit e).workQueue = e.workQueue ∧
    (nxt_timer_changes_commit e).mchanges = e.mchanges := by
  obtain ⟨a, b, c, d⟩ := foldl_apply_proj e.changes e
  exact ⟨a, b, c, d⟩

theorem change_proj (e : Engine) (id : TimerId) (op : TimerOperation)
    (t0 : Nat) :
    (nxt_timer_change e id op t0).now = e.now ∧
    (nxt_timer_change e id op t0).minimum = e.minimum ∧
    (nxt_timer_change e id op t0).workQueue = e.workQueue ∧
    (nxt_timer_change e id op t0).mchanges = e.mchanges := by
  unfold nxt_timer_change
  by_cases h : e.mchanges ≤ e.changes.length
  · obtain ⟨a, b, c, d⟩ := commit_proj e
    simp [h, a, b, c, d]
  · simp [h]

theorem add_proj (e : Engine) (id : TimerId) (x : Nat) :
    (nxt_timer_add e id x).now = e.now ∧
    (nxt_timer_add e id x).minimum = e.minimum ∧
    (nxt_timer_add e id x).workQueue = e.workQueue ∧
    (nxt_timer_add e id x).mchanges = e.mchanges := by
  by_cases h : (e.timers id).state ≠ TimerState.changing ∧
      (e.timers id).in_tree = true ∧
      (nxt_msec_diff (u32 (e.now + x)) (e.timers id).time).natAbs <
        (e.timers id).precision
  · simp [nxt_timer_add, h]
  · simp only [nxt_timer_add, if_neg h]
    exact change_proj e id TimerOperation.add (u32 (e.now + x))

theorem disable_proj (e : Engine) (id : TimerId) :
    (nxt_timer_disable e id).now = e.now ∧
    (nxt_timer_disable e id).minimum = e.minimum ∧
    (nxt_timer_disable e id).workQueue = e.workQueue ∧
    (nxt_timer_disable e id).mchanges = e.mchanges := by
  by_cases h : (e.timers id).state ≠ TimerState.changing
  · simp [nxt_timer_disable, h]
  · simp only [nxt_timer_disable, if_neg h]
    exact change_proj e id TimerOperation.disable 0

/-! Claim C2: Find-Next-Deadline. -/

/-- C2: nxt_timer_find first commits any pending batch (the walk happens on
the committed engine, whose batch is empty), then walks the index in order
skipping Disabled entries without removing them: if the first non-Disabled
entry is id, the cached minimum becomes that entry's deadline and the
result is max(deadline - now, 0) under the signed wraparound-aware
difference; if no such entry exists, the cached minimum becomes now + one
day (24*60*60*1000 ms) and the result is the infinite-wait sentinel. -/
theorem c2_find_next_deadline_spec (e : Engine) :
    (nxt_timer_changes_commit e).changes = [] ∧
    nxt_timer_find e =
      findLoop (nxt_timer_changes_commit e) (nxt_timer_changes_commit e).tree ∧
    ((nxt_timer_changes_commit e).tree.find?
        (activeTimer (nxt_timer_changes_commit e)) = none →
      nxt_timer_find e =
        ({ nxt_timer_changes_commit e with minimum := u32 (e.now + 86400000) },
         NXT_INFINITE_MSEC)) ∧
    ∀ id, (nxt_timer_changes_commit e).tree.find?
        (activeTimer (nxt_timer_changes_commit e)) = some id →
      nxt_timer_find e =
        ({ nxt_timer_changes_commit e with
             minimum := ((nxt_timer_changes_commit e).timers id).time },
         (max (nxt_msec_diff ((nxt_timer_changes_commit e).timers id).time
             e.now) 0).toNat) := by
  have hnow : (nxt_timer_changes_commit e).now = e.now := (commit_proj e).1
  have hcomm : nxt_timer_find e =
      findLoop (nxt_timer_changes_commit e)
        (nxt_timer_changes_commit e).tree := by
    unfold nxt_timer_find
    by_cases h : e.changes.length ≠ 0
    · simp [h]
    · have hempty : e.changes = [] := by simpa using h
      simp only [h, if_neg, ite_false]
      rw [commit_of_empty e hempty]
  refine ⟨commit_changes e, hcomm, ?_, ?_⟩
  · intro h
    rw [hcomm, (findLoop_spec (nxt_timer_changes_commit e)
      (nxt_timer_changes_commit e).tree).1 h]
    simp [hnow]
  · intro id h
    rw [hcomm, (findLoop_spec (nxt_timer_changes_commit e)
      (nxt_timer_changes_commit e).tree).2 id h]
    simp [hnow]

/-- C2 witness: on the engine with the single Waiting timer 0 at deadline
100 and now 0, the walk finds timer 0 and Find returns 100. -/
theorem c2_find_next_deadline_spec_witness :
    (nxt_timer_changes_commit oneTimerEngine).tree.find?
        (activeTimer (nxt_timer_changes_commit oneTimerEngine)) = some 0 ∧
    nxt_timer_find oneTimerEngine =
      ({ nxt_timer_changes_commit oneTimerEngine with
           minimum := ((nxt_timer_changes_commit oneTimerEngine).timers 0).time },
       (max (nxt_msec_diff
           ((nxt_timer_changes_commit oneTimerEngine).timers 0).time
           oneTimerEngine.now) 0).toNat) :=
  ⟨by decide, (c2_find_next_deadline_spec oneTimerEngine).2.2.2 0 (by decide)⟩

/-! Claim C3: Expire. -/

/-- C3: nxt_timer_expire sets the engine's now; if the cached minimum is
still strictly in the future under the signed wraparound-aware comparison
it returns with nothing else changed; otherwise it walks the index from
the minimum, and exactly the leading run of due entries (deadline ≤ now)
is unlinked with in_tree cleared — each non-Disabled one becoming Enqueued
and being appended, in walk order, to the work-dispatch queue, each
Disabled one dropped without dispatch — while the walk stops at the first
entry whose deadline is in the future, leaving the rest of the index and
all other timers untouched. -/
theorem c3_expire_spec (e : Engine) (now : Nat) :
    (nxt_timer_expire e now).now = now ∧
    (0 < nxt_msec_diff e.minimum now →
      nxt_timer_expire e now = { e with now := now }) ∧
    (nxt_msec_diff e.minimum now ≤ 0 →
      (nxt_timer_expire e now).tree =
        e.tree.dropWhile (dueBy { e with now := now }) ∧
      (nxt_timer_expire e now).workQueue =
        e.workQueue ++
          (e.tree.takeWhile (dueBy { e with now := now })).filter
            (activeTimer e) ∧
      ∀ id, (nxt_timer_expire e now).timers id =
        if id ∈ e.tree.takeWhile (dueBy { e with now := now }) then
          expireMark (e.timers id)
        else e.timers id) := by
  have hfast : ∀ _ : 0 < nxt_msec_diff e.minimum now,
      nxt_timer_expire e now = { e with now := now } := by
    intro h
    simp [nxt_timer_expire, h]
  have hslow : ¬ 0 < nxt_msec_diff e.minimum now →
      nxt_timer_expire e now = expireWalk { e with now := now } e.tree := by
    intro h
    simp [nxt_timer_expire, h]
  refine ⟨?_, hfast, ?_⟩
  · by_cases h : 0 < nxt_msec_diff e.minimum now
    · rw [hfast h]
    · rw [hslow h]
      exact (expireWalk_spec e.tree { e with now := now }).2.2.2.1
  · intro h
    have hngt : ¬ 0 < nxt_msec_diff e.minimum now := by omega
    rw [hslow hngt]
    obtain ⟨h1, h2, _, _, _, _, h7⟩ :=
      expireWalk_spec e.tree { e with now := now }
    exact ⟨h1, h2, h7⟩

/-- C3 witness: on the engine with the single Waiting timer 0 at deadline
100 with cached minimum 100, Expire at now 150 walks, unlinks and enqueues
timer 0. -/
theorem c3_expire_spec_witness :
    nxt_msec_diff oneTimerEngine.minimum 150 ≤ 0 ∧
    (nxt_timer_expire oneTimerEngine 150).tree =
      oneTimerEngine.tree.dropWhile (dueBy { oneTimerEngine with now := 150 }) ∧
    (nxt_timer_expire oneTimerEngine 150).workQueue =
      oneTimerEngine.workQueue ++
        (oneTimerEngine.tree.takeWhile
          (dueBy { oneTimerEngine with now := 150 })).filter
          (activeTimer oneTimerEngine) :=
  ⟨by decide, ((c3_expire_spec oneTimerEngine 150).2.2 (by decide)).1,
   ((c3_expire_spec oneTimerEngine 150).2.2 (by decide)).2.1⟩

/-! Claim C4: commit points, amended. -/

/-- C4 amended (the original claim fails, see the counterexample):
Find-Next-Deadline is a commit point — it commits any pending batch before
walking, so the engine it returns has an empty batch — but Expire is not:
nxt_timer_expire never touches the batch, which stays exactly as it was,
and the expiry walk can run while change records are still pending. -/
theorem c4_commit_points_amended (e : Engine) (now : Nat) :
    (nxt_timer_find e).1.changes = [] ∧
    (nxt_timer_expire e now).changes = e.changes := by
  constructor
  · have hcomm : nxt_timer_find e =
        findLoop (nxt_timer_changes_commit e)
          (nxt_timer_changes_commit e).tree := by
      unfold nxt_timer_find
      by_cases h : e.changes.length ≠ 0
      · simp [h]
      · have hempty : e.changes = [] := by simpa using h
        simp only [h, if_neg, ite_false]
        rw [commit_of_empty e hempty]
    rw [hcomm]
    rcases hf : (nxt_timer_changes_commit e).tree.find?
        (activeTimer (nxt_timer_changes_commit e)) with _ | id
    · rw [(findLoop_spec (nxt_timer_changes_commit e)
        (nxt_timer_changes_commit e).tree).1 hf]
      rfl
    · rw [(findLoop_spec (nxt_timer_changes_commit e)
        (nxt_timer_changes_commit e).tree).2 id hf]
      rfl
  · by_cases h : 0 < nxt_msec_diff e.minimum now
    · simp [nxt_timer_expire, h]
    · have hw : nxt_timer_expire e now =
          expireWalk { e with now := now } e.tree := by
        simp [nxt_timer_expire, h]
      rw [hw]
      exact (expireWalk_spec e.tree { e with now := now }).2.2.1

/-! Claim C1: the batch commit algorithm. -/

/-- C1: commit replays the batch one record at a time in insertion order
(peeling the last record off a batch rs ++ [r2] applies r2 to the state
reached after rs) and leaves the batch empty. Applying one record: an Add
whose timer is in the tree with a deadline within precision of the record
time keeps the timer's tree position and deadline and only sets state
Waiting; any other Add removes the stale tree entry (when present), sets
the deadline to the record's time, reinserts the timer (in_tree set) with
state Waiting; a Delete removes the timer from the tree when present,
clears in_tree and sets state Disabled; a Disable leaves the tree alone
and sets state Disabled. -/
theorem c1_commit_batch_spec (e : Engine) (r : ChangeRecord) :
    (nxt_timer_changes_commit e).changes = [] ∧
    (∀ rs r2, e.changes = rs ++ [r2] →
      nxt_timer_changes_commit e =
        { nxt_timer_change_apply (rs.foldl nxt_timer_change_apply e) r2 with
            changes := [] }) ∧
    (r.change = TimerOperation.add →
      (e.timers r.timer).in_tree = true →
      (nxt_msec_diff r.time (e.timers r.timer).time).natAbs <
        (e.timers r.timer).precision →
      nxt_timer_change_apply e r =
        setTimer e r.timer
          { e.timers r.timer with state := TimerState.waiting }) ∧
    (r.change = TimerOperation.add →
      ¬ ((e.timers r.timer).in_tree = true ∧
         (nxt_msec_diff r.time (e.timers r.timer).time).natAbs <
           (e.timers r.timer).precision) →
      ((nxt_timer_change_apply e r).timers r.timer).time = r.time ∧
      ((nxt_timer_change_apply e r).timers r.timer).in_tree = true ∧
      ((nxt_timer_change_apply e r).timers r.timer).state =
        TimerState.waiting ∧
      ((nxt_timer_change_apply e r).timers r.timer).precision =
        (e.timers r.timer).precision ∧
      (nxt_timer_change_apply e r).tree =
        treeInsert ((nxt_timer_change_apply e r).timers)
          (if (e.timers r.timer).in_tree = true then e.tree.erase r.timer
           else e.tree) r.timer) ∧
    (r.change = TimerOperation.delete →
      (nxt_timer_change_apply e r).tree =
        (if (e.timers r.timer).in_tree = true then e.tree.erase r.timer
         else e.tree) ∧
      ((nxt_timer_change_apply e r).timers r.timer).state =
        TimerState.disabled ∧
      ((nxt_timer_change_apply e r).timers r.timer).in_tree = false ∧
      ((e.timers r.timer).in_tree = false →
        (nxt_timer_change_apply e r).tree = e.tree)) ∧
    (r.change = TimerOperation.disable →
      (nxt_timer_change_apply e r).tree = e.tree ∧
      nxt_timer_change_apply e r =
        setTimer e r.timer
          { e.timers r.timer with state := TimerState.disabled }) := by
  obtain ⟨op, t0, i⟩ := r
  refine ⟨commit_changes e, ?_, ?_, ?_, ?_, ?_⟩
  · intro rs r2 h
    unfold nxt_timer_changes_commit
    rw [h, List.foldl_append]
    rfl
  · intro ha hf hp
    simp only at ha
    subst ha
    simp [nxt_timer_change_apply, hf, hp]
  · intro ha hnc
    simp only at ha
    subst ha
    by_cases hf : (e.timers i).in_tree = true
    · have hp : ¬ (nxt_msec_diff t0 (e.timers i).time).natAbs <
          (e.timers i).precision := fun hc => hnc ⟨hf, hc⟩
      refine ⟨?_, ?_, ?_, ?_, ?_⟩ <;>
        simp [nxt_timer_change_apply, hf, hp, setTimer]
    · refine ⟨?_, ?_, ?_, ?_, ?_⟩ <;>
        simp [nxt_timer_change_apply, hf, setTimer]
  · intro hd
    simp only at hd
    subst hd
    by_cases hf : (e.timers i).in_tree = true
    · refine ⟨by simp [nxt_timer_change_apply, hf], ?_, ?_, ?_⟩ <;>
        first
          | (intro hff; rw [hf] at hff; cases hff)
          | simp [nxt_timer_change_apply, hf, setTimer]
    · have hf' : (e.timers i).in_tree = false := by simpa using hf
      refine ⟨by simp [nxt_timer_change_apply, hf], ?_, ?_, ?_⟩ <;>
        first
          | (intro hff; simp [nxt_timer_change_apply, hf])
          | simp [nxt_timer_change_apply, hf, hf', setTimer]
  · intro hd
    simp only at hd
    subst hd
    exact ⟨rfl, rfl⟩

/-- C1 witness: a Disable record leaves the tree untouched and only sets
the state, and commit of the singleton batch holding it empties the
batch. -/
theorem c1_commit_batch_spec_witness :
    (⟨TimerOperation.disable, 0, 0⟩ : ChangeRecord).change =
      TimerOperation.disable ∧
    (nxt_timer_change_apply oneTimerEngine
      ⟨TimerOperation.disable, 0, 0⟩).tree = oneTimerEngine.tree :=
  ⟨rfl, ((c1_commit_batch_spec oneTimerEngine
    ⟨TimerOperation.disable, 0, 0⟩).2.2.2.2.2 rfl).1⟩

/-! Timers untouched by records that do not mention them. -/

theorem apply_timers_ne (e : Engine) (r : ChangeRecord) (id : TimerId)
    (h : r.timer ≠ id) :
    (nxt_timer_change_apply e r).timers id = e.timers id := by
  obtain ⟨op, t0, i⟩ := r
  simp only at h
  have hne : id ≠ i := fun hh => h hh.symm
  cases op
  case add =>
    by_cases h1 : (e.timers i).in_tree = true ∧
        (nxt_msec_diff t0 (e.timers i).time).natAbs < (e.timers i).precision
    · simp [nxt_timer_change_apply, h1, setTimer, hne]
    · by_cases h2 : (e.timers i).in_tree = true
      · have h3 : ¬ (nxt_msec_diff t0 (e.timers i).time).natAbs <
            (e.timers i).precision := fun hc => h1 ⟨h2, hc⟩
        simp [nxt_timer_change_apply, h1, h2, h3, setTimer, hne]
      · simp [nxt_timer_change_apply, h1, h2, setTimer, hne]
  case delete =>
    by_cases h2 : (e.timers i).in_tree = true <;>
      simp [nxt_timer_change_apply, h2, setTimer, hne]
  case disable => simp [nxt_timer_change_apply, setTimer, hne]

theorem foldl_timers_of_no_rec (rs : List ChangeRecord) (id : TimerId) :
    ∀ e : Engine, (∀ r ∈ rs, r.timer ≠ id) →
      (rs.foldl nxt_timer_change_apply e).timers id = e.timers id := by
  induction rs with
  | nil => exact fun e _ => rfl
  | cons r rs ih =>
      intro e h
      have hr : r.timer ≠ id := h r (List.mem_cons_self r rs)
      have hrs : ∀ r' ∈ rs, r'.timer ≠ id := fun r' hm =>
        h r' (List.mem_cons_of_mem r hm)
      calc (List.foldl nxt_timer_change_apply (nxt_timer_change_apply e r)
              rs).timers id
          = (nxt_timer_change_apply e r).timers id := ih _ hrs
        _ = e.timers id := apply_timers_ne e r id hr

theorem commit_timers_of_no_rec (e : Engine) (id : TimerId)
    (h : ∀ r ∈ e.changes, r.timer ≠ id) :
    (nxt_timer_changes_commit e).timers id = e.timers id :=
  foldl_timers_of_no_rec e.changes id e h

theorem commit_last_disable (e : Engine) (id : TimerId) (rs : List ChangeRecord)
    (t0 : Nat) (h : e.changes = rs ++ [⟨TimerOperation.disable, t0, id⟩]) :
    ((nxt_timer_changes_commit e).timers id).state = TimerState.disabled := by
  unfold nxt_timer_changes_commit
  rw [h, List.foldl_append]
  simp [nxt_timer_change_apply, setTimer]

theorem change_timers_self (e : Engine) (id : TimerId) (op : TimerOperation)
    (t0 : Nat) :
    ((nxt_timer_change e id op t0).timers id).state = TimerState.changing := by
  unfold nxt_timer_change
  by_cases h : e.mchanges ≤ e.changes.length <;> simp [h, setTimer]

theorem expire_of_future (e : Engine) (now : Nat)
    (h : 0 < nxt_msec_diff e.minimum now) :
    nxt_timer_expire e now = { e with now := now } := by
  simp [nxt_timer_expire, h]

theorem expire_of_due (e : Engine) (now : Nat)
    (h : ¬ 0 < nxt_msec_diff e.minimum now) :
    nxt_timer_expire e now = expireWalk { e with now := now } e.tree := by
  simp [nxt_timer_expire, h]

theorem state_after_add_disable_commit (e : Engine) (id : TimerId) (x : Nat)
    (h1 : ∀ r ∈ e.changes, r.timer ≠ id) :
    ((nxt_timer_changes_commit
      (nxt_timer_disable (nxt_timer_add e id x) id)).timers id).state =
      TimerState.disabled := by
  by_cases hfast : (e.timers id).state ≠ TimerState.changing ∧
      (e.timers id).in_tree = true ∧
      (nxt_msec_diff (u32 (e.now + x)) (e.timers id).time).natAbs <
        (e.timers id).precision
  · have hA : nxt_timer_add e id x =
        setTimer e id { e.timers id with state := TimerState.waiting } := by
      simp [nxt_timer_add, hfast]
    have hAstate : ((nxt_timer_add e id x).timers id).state =
        TimerState.waiting := by
      rw [hA]
      simp
    have hAne : ((nxt_timer_add e id x).timers id).state ≠
        TimerState.changing := by
      rw [hAstate]
      simp
    have hD : nxt_timer_disable (nxt_timer_add e id x) id =
        setTimer (nxt_timer_add e id x) id
          { (nxt_timer_add e id x).timers id with
              state := TimerState.disabled } := by
      simp [nxt_timer_disable, hAne]
    have hch : (nxt_timer_disable (nxt_timer_add e id x) id).changes =
        e.changes := by
      rw [hD, setTimer_changes, hA, setTimer_changes]
    rw [commit_timers_of_no_rec _ id (by rw [hch]; exact h1), hD]
    simp
  · have hA : nxt_timer_add e id x =
        nxt_timer_change e id TimerOperation.add (u32 (e.now + x)) := by
      simp [nxt_timer_add, hfast]
    have hAstate : ((nxt_timer_add e id x).timers id).state =
        TimerState.changing := by
      rw [hA]
      exact change_timers_self e id TimerOperation.add (u32 (e.now + x))
    have hD : nxt_timer_disable (nxt_timer_add e id x) id =
        nxt_timer_change (nxt_timer_add e id x) id TimerOperation.disable
          0 := by
      simp [nxt_timer_disable, hAstate]
    rw [hD]
    exact commit_last_disable _ id _ 0 (change_changes _ id _ 0)

/-! Claim C5: disable-then-fire, amended. -/

/-- C5 amended (the original claim fails when no commit separates the calls
and the timer already sat in the tree with a due stale deadline, see the
counterexample): after Add(T, x) then Disable(T), if the batch is committed
before Expire runs, Expire never submits T to the work-dispatch queue
(assuming T had no pending record before the Add and was not already
sitting on the work queue). -/
theorem c5_disable_then_fire_amended (e : Engine) (id : TimerId) (x now : Nat)
    (h1 : ∀ r ∈ e.changes, r.timer ≠ id) (h2 : id ∉ e.workQueue) :
    id ∉ (nxt_timer_expire
      (nxt_timer_changes_commit (nxt_timer_disable (nxt_timer_add e id x) id))
      now).workQueue := by
  have hstate := state_after_add_disable_commit e id x h1
  have hwq : (nxt_timer_changes_commit
      (nxt_timer_disable (nxt_timer_add e id x) id)).workQueue =
      e.workQueue := by
    rw [(commit_proj _).2.2.1, (disable_proj _ _).2.2.1, (add_proj _ _ _).2.2.1]
  by_cases h : 0 < nxt_msec_diff (nxt_timer_changes_commit
      (nxt_timer_disable (nxt_timer_add e id x) id)).minimum now
  · rw [expire_of_future _ now h]
    intro hmem
    rw [hwq] at hmem
    exact h2 hmem
  · rw [expire_of_due _ now h]
    intro hmem
    obtain ⟨_, hwalk, _⟩ := expireWalk_spec
      (nxt_timer_changes_commit
        (nxt_timer_disable (nxt_timer_add e id x) id)).tree
      { nxt_timer_changes_commit
          (nxt_timer_disable (nxt_timer_add e id x) id) with now := now }
    rw [hwalk] at hmem
    rcases List.mem_append.mp hmem with hmem | hmem
    · rw [hwq] at hmem
      exact h2 hmem
    · have hact := (List.mem_filter.mp hmem).2
      rw [activeTimer] at hact
      simp only [hstate] at hact
      simp at hact

/-- C5 witness: with no pending record for timer 0 and an empty work queue,
Add then Disable then commit then Expire never dispatches timer 0. -/
theorem c5_disable_then_fire_amended_witness :
    (∀ r ∈ oneTimerEngine.changes, r.timer ≠ 0) ∧
    0 ∉ oneTimerEngine.workQueue ∧
    0 ∉ (nxt_timer_expire
      (nxt_timer_changes_commit
        (nxt_timer_disable (nxt_timer_add oneTimerEngine 0 0) 0))
      150).workQueue :=
  ⟨by simp [oneTimerEngine], by simp [oneTimerEngine],
   c5_disable_then_fire_amended oneTimerEngine 0 0 150
     (by simp [oneTimerEngine]) (by simp [oneTimerEngine])⟩

/-! Claim C6: coalescing, amended. -/

theorem change_of_not_full (e : Engine) (id : TimerId) (op : TimerOperation)
    (t0 : Nat) (h : ¬ e.mchanges ≤ e.changes.length) :
    nxt_timer_change e id op t0 =
      { setTimer e id { e.timers id with state := TimerState.changing } with
          changes := e.changes ++ [⟨op, t0, id⟩] } := by
  simp [nxt_timer_change, h]

theorem apply_add_timers_self (e : Engine) (i : TimerId) (t0 : Nat) :
    (nxt_timer_change_apply e ⟨TimerOperation.add, t0, i⟩).timers i =
      if (e.timers i).in_tree = true ∧
          (nxt_msec_diff t0 (e.timers i).time).natAbs <
            (e.timers i).precision then
        { e.timers i with state := TimerState.waiting }
      else ⟨t0, (e.timers i).precision, TimerState.waiting, true⟩ := by
  by_cases hcond : (e.timers i).in_tree = true ∧
      (nxt_msec_diff t0 (e.timers i).time).natAbs < (e.timers i).precision
  · simp [nxt_timer_change_apply, hcond, setTimer]
  · by_cases hf : (e.timers i).in_tree = true
    · have h3 : ¬ (nxt_msec_diff t0 (e.timers i).time).natAbs <
          (e.timers i).precision := fun hlt => hcond ⟨hf, hlt⟩
      simp [nxt_timer_change_apply, hcond, hf, h3, setTimer]
    · simp [nxt_timer_change_apply, hcond, hf, setTimer]

theorem add_slow (e : Engine) (id : TimerId) (x : Nat)
    (h : ¬ ((e.timers id).state ≠ TimerState.changing ∧
      (e.timers id).in_tree = true ∧
      (nxt_msec_diff (u32 (e.now + x)) (e.timers id).time).natAbs <
        (e.timers id).precision)) :
    nxt_timer_add e id x =
      nxt_timer_change e id TimerOperation.add (u32 (e.now + x)) := by
  simp [nxt_timer_add, h]

/-- C6 amended (the original claim fails when the first Add is absorbed by
the fast path, see the counterexample): starting from an empty batch with
capacity at least 2, if the first Add actually queues a change record
(i.e. the timer is not in the tree, or u32(now + x) differs from its
current deadline by at least the precision), then Add(T, x) immediately
followed by Add(T, x') with |u32(now + x') - u32(now + x)| < precision
(signed wraparound-aware difference), once committed, leaves T's deadline
exactly at u32(now + x) - the deadline requested by the first Add, the
second Add being coalesced away - with state Waiting and an empty batch. -/
theorem c6_coalescing_amended (e : Engine) (id : TimerId) (x x' : Nat)
    (hb : e.changes = []) (hm : 2 ≤ e.mchanges)
    (hc : (e.timers id).in_tree = true →
      (e.timers id).precision ≤
        (nxt_msec_diff (u32 (e.now + x)) (e.timers id).time).natAbs)
    (hd : (nxt_msec_diff (u32 (e.now + x')) (u32 (e.now + x))).natAbs <
      (e.timers id).precision) :
    ((nxt_timer_changes_commit
      (nxt_timer_add (nxt_timer_add e id x) id x')).timers id).time =
      u32 (e.now + x) ∧
    ((nxt_timer_changes_commit
      (nxt_timer_add (nxt_timer_add e id x) id x')).timers id).state =
      TimerState.waiting ∧
    (nxt_timer_changes_commit
      (nxt_timer_add (nxt_timer_add e id x) id x')).changes = [] := by
  have hnf1 : ¬ ((e.timers id).state ≠ TimerState.changing ∧
      (e.timers id).in_tree = true ∧
      (nxt_msec_diff (u32 (e.now + x)) (e.timers id).time).natAbs <
        (e.timers id).precision) := by
    rintro ⟨-, hflag, hlt⟩
    exact absurd hlt (not_lt.mpr (hc hflag))
  have hfull1 : ¬ e.mchanges ≤ e.changes.length := by
    rw [hb]
    simp
    omega
  have hA : nxt_timer_add e id x =
      nxt_timer_change e id TimerOperation.add (u32 (e.now + x)) :=
    add_slow e id x hnf1
  have hAexp := change_of_not_full e id TimerOperation.add (u32 (e.now + x))
    hfull1
  have hAt : (nxt_timer_add e id x).timers id =
      { e.timers id with state := TimerState.changing } := by
    rw [hA, hAexp]
    simp
  have hAch : (nxt_timer_add e id x).changes =
      [⟨TimerOperation.add, u32 (e.now + x), id⟩] := by
    rw [hA, hAexp]
    simp [hb]
  have hAnow : (nxt_timer_add e id x).now = e.now := (add_proj e id x).1
  have hAm : (nxt_timer_add e id x).mchanges = e.mchanges :=
    (add_proj e id x).2.2.2
  have hnf2 : ¬ (((nxt_timer_add e id x).timers id).state ≠
      TimerState.changing ∧
      ((nxt_timer_add e id x).timers id).in_tree = true ∧
      (nxt_msec_diff (u32 ((nxt_timer_add e id x).now + x'))
        ((nxt_timer_add e id x).timers id).time).natAbs <
        ((nxt_timer_add e id x).timers id).precision) := by
    rintro ⟨hs, -, -⟩
    rw [hAt] at hs
    exact hs rfl
  have hfull2 : ¬ (nxt_timer_add e id x).mchanges ≤
      (nxt_timer_add e id x).changes.length := by
    rw [hAch, hAm]
    simp
    omega
  have hB : nxt_timer_add (nxt_timer_add e id x) id x' =
      nxt_timer_change (nxt_timer_add e id x) id TimerOperation.add
        (u32 ((nxt_timer_add e id x).now + x')) :=
    add_slow (nxt_timer_add e id x) id x' hnf2
  have hBexp := change_of_not_full (nxt_timer_add e id x) id
    TimerOperation.add (u32 ((nxt_timer_add e id x).now + x')) hfull2
  have hBt : (nxt_timer_add (nxt_timer_add e id x) id x').timers id =
      { e.timers id with state := TimerState.changing } := by
    rw [hB, hBexp]
    simp [hAt]
  have hBch : (nxt_timer_add (nxt_timer_add e id x) id x').changes =
      [⟨TimerOperation.add, u32 (e.now + x), id⟩,
       ⟨TimerOperation.add, u32 (e.now + x'), id⟩] := by
    rw [hB, hBexp]
    simp [hAch, hAnow]
  have hstep1 : (nxt_timer_change_apply
      (nxt_timer_add (nxt_timer_add e id x) id x')
      ⟨TimerOperation.add, u32 (e.now + x), id⟩).timers id =
      ⟨u32 (e.now + x), (e.timers id).precision, TimerState.waiting,
       true⟩ := by
    rw [apply_add_timers_self]
    rw [hBt]
    have : ¬ ((e.timers id).in_tree = true ∧
        (nxt_msec_diff (u32 (e.now + x)) (e.timers id).time).natAbs <
          (e.timers id).precision) := by
      rintro ⟨hflag, hlt⟩
      exact absurd hlt (not_lt.mpr (hc hflag))
    simp [this]
  have hstep2 : (nxt_timer_change_apply
      (nxt_timer_change_apply
        (nxt_timer_add (nxt_timer_add e id x) id x')
        ⟨TimerOperation.add, u32 (e.now + x), id⟩)
      ⟨TimerOperation.add, u32 (e.now + x'), id⟩).timers id =
      ⟨u32 (e.now + x), (e.timers id).precision, TimerState.waiting,
       true⟩ := by
    rw [apply_add_timers_self]
    rw [hstep1]
    simp [hd]
  have hcommit : (nxt_timer_changes_commit
      (nxt_timer_add (nxt_timer_add e id x) id x')).timers id =
      ⟨u32 (e.now + x), (e.timers id).precision, TimerState.waiting,
       true⟩ := by
    unfold nxt_timer_changes_commit
    rw [hBch]
    simp only [List.foldl_cons, List.foldl_nil]
    exact hstep2
  exact ⟨by rw [hcommit], by rw [hcommit], commit_changes _⟩

/-- C6 witness: timer 0 committed at deadline 100 with precision 10 at
now 0; Add(0, 900) then Add(0, 905) commit to deadline 900. -/
theorem c6_coalescing_amended_witness :
    oneTimerEngine.changes = [] ∧
    ((oneTimerEngine.timers 0).in_tree = true →
      (oneTimerEngine.timers 0).precision ≤
        (nxt_msec_diff (u32 (oneTimerEngine.now + 900))
          (oneTimerEngine.timers 0).time).natAbs) ∧
    (nxt_msec_diff (u32 (oneTimerEngine.now + 905))
        (u32 (oneTimerEngine.now + 900))).natAbs <
      (oneTimerEngine.timers 0).precision ∧
    ((nxt_timer_changes_commit
      (nxt_timer_add (nxt_timer_add oneTimerEngine 0 900) 0 905)).timers
        0).time = u32 (oneTimerEngine.now + 900) :=
  ⟨rfl, by decide, by decide,
   (c6_coalescing_amended oneTimerEngine 0 900 905 rfl (by decide)
     (by decide) (by decide)).1⟩

/-! Claim C10: the membership invariant. -/

theorem mem_treeInsert (m : TimerId → Timer) (l : List TimerId)
    (id x : TimerId) : x ∈ treeInsert m l id ↔ x = id ∨ x ∈ l := by
  induction l with
  | nil => simp [treeInsert]
  | cons a as ih =>
      by_cases h : nxt_timer_rbtree_compare (m id) (m a) < 0
      · simp [treeInsert, h, List.mem_cons]
      · simp only [treeInsert, if_neg h, List.mem_cons, ih]
        tauto

theorem nodup_treeInsert (m : TimerId → Timer) (l : List TimerId)
    (id : TimerId) (hl : l.Nodup) (hid : id ∉ l) :
    (treeInsert m l id).Nodup := by
  induction l with
  | nil => simp [treeInsert]
  | cons a as ih =>
      obtain ⟨ha, has⟩ := List.nodup_cons.mp hl
      have hid' : id ∉ as := fun hm => hid (List.mem_cons_of_mem a hm)
      have hida : id ≠ a := fun hh => hid (hh ▸ List.mem_cons_self a as)
      by_cases h : nxt_timer_rbtree_compare (m id) (m a) < 0
      · simp only [treeInsert, if_pos h]
        refine List.nodup_cons.mpr ⟨?_, hl⟩
        simp [hida, hid']
      · simp only [treeInsert, if_neg h]
        refine List.nodup_cons.mpr ⟨?_, ih has hid'⟩
        intro hmem
        rcases (mem_treeInsert m as id a).mp hmem with h1 | h1
        · exact hida h1.symm
        · exact ha h1

theorem wf_setTimer (e : Engine) (id : TimerId) (t : Timer)
    (hwf : EngineWF e) (hflag : t.in_tree = (e.timers id).in_tree) :
    EngineWF (setTimer e id t) := by
  refine ⟨hwf.1, fun x => ?_⟩
  by_cases hx : x = id
  · subst hx
    rw [setTimer_tree, setTimer_timers_self, hflag]
    exact hwf.2 x
  · rw [setTimer_tree, setTimer_timers_ne e id t x hx]
    exact hwf.2 x

theorem wf_apply (e : Engine) (r : ChangeRecord) (hwf : EngineWF e) :
    EngineWF (nxt_timer_change_apply e r) := by
  obtain ⟨op, t0, i⟩ := r
  cases op
  case add =>
    by_cases h1 : (e.timers i).in_tree = true ∧
        (nxt_msec_diff t0 (e.timers i).time).natAbs < (e.timers i).precision
    · have heq : nxt_timer_change_apply e ⟨TimerOperation.add, t0, i⟩ =
          setTimer e i { e.timers i with state := TimerState.waiting } := by
        simp [nxt_timer_change_apply, h1]
      rw [heq]
      exact wf_setTimer e i _ hwf rfl
    · by_cases hf : (e.timers i).in_tree = true
      · have h3 : ¬ (nxt_msec_diff t0 (e.timers i).time).natAbs <
            (e.timers i).precision := fun hc => h1 ⟨hf, hc⟩
        have hnd : (e.tree.erase i).Nodup := hwf.1.erase i
        have hni : i ∉ e.tree.erase i := hwf.1.not_mem_erase
        have htree : (nxt_timer_change_apply e
            ⟨TimerOperation.add, t0, i⟩).tree =
            treeInsert (fun j => if j = i then
                (⟨t0, (e.timers i).precision, TimerState.waiting, true⟩ :
                  Timer)
              else e.timers j) (e.tree.erase i) i := by
          simp [nxt_timer_change_apply, h1, hf, h3, setTimer]
        have htimers : (nxt_timer_change_apply e
            ⟨TimerOperation.add, t0, i⟩).timers =
            fun j => if j = i then
                (⟨t0, (e.timers i).precision, TimerState.waiting, true⟩ :
                  Timer)
              else e.timers j := by
          simp [nxt_timer_change_apply, h1, hf, h3, setTimer]
        refine ⟨?_, fun x => ?_⟩
        · rw [htree]
          exact nodup_treeInsert _ _ i hnd hni
        · rw [htree, htimers, mem_treeInsert]
          by_cases hx : x = i
          · subst hx
            simp
          · have hmm : x ∈ e.tree.erase i ↔ x ∈ e.tree :=
              ⟨fun hh => List.mem_of_mem_erase hh,
               fun hh => (hwf.1.mem_erase_iff).mpr ⟨hx, hh⟩⟩
            simp only [hx, false_or, if_neg hx]
            rw [hmm]
            exact hwf.2 x
      · have hni : i ∉ e.tree := fun hm => hf ((hwf.2 i).mp hm)
        have htree : (nxt_timer_change_apply e
            ⟨TimerOperation.add, t0, i⟩).tree =
            treeInsert (fun j => if j = i then
                (⟨t0, (e.timers i).precision, TimerState.waiting, true⟩ :
                  Timer)
              else e.timers j) e.tree i := by
          simp [nxt_timer_change_apply, h1, hf, setTimer]
        have htimers : (nxt_timer_change_apply e
            ⟨TimerOperation.add, t0, i⟩).timers =
            fun j => if j = i then
                (⟨t0, (e.timers i).precision, TimerState.waiting, true⟩ :
                  Timer)
              else e.timers j := by
          simp [nxt_timer_change_apply, h1, hf, setTimer]
        refine ⟨?_, fun x => ?_⟩
        · rw [htree]
          exact nodup_treeInsert _ _ i hwf.1 hni
        · rw [htree, htimers, mem_treeInsert]
          by_cases hx : x = i
          · subst hx
            simp
          · simp only [hx, false_or, if_neg hx]
            exact hwf.2 x
  case delete =>
    by_cases hf : (e.timers i).in_tree = true
    · have htree : (nxt_timer_change_apply e
          ⟨TimerOperation.delete, t0, i⟩).tree = e.tree.erase i := by
        simp [nxt_timer_change_apply, hf]
      have htimers : (nxt_timer_change_apply e
          ⟨TimerOperation.delete, t0, i⟩).timers =
          fun j => if j = i then
              (⟨(e.timers i).time, (e.timers i).precision,
                TimerState.disabled, false⟩ : Timer)
            else e.timers j := by
        simp [nxt_timer_change_apply, hf, setTimer]
      refine ⟨?_, fun x => ?_⟩
      · rw [htree]
        exact hwf.1.erase i
      · rw [htree, htimers]
        by_cases hx : x = i
        · subst hx
          have hni : x ∉ e.tree.erase x := hwf.1.not_mem_erase
          simp [hni]
        · have hmm : x ∈ e.tree.erase i ↔ x ∈ e.tree :=
            ⟨fun hh => List.mem_of_mem_erase hh,
             fun hh => (hwf.1.mem_erase_iff).mpr ⟨hx, hh⟩⟩
          simp only [if_neg hx]
          rw [hmm]
          exact hwf.2 x
    · have heq : nxt_timer_change_apply e ⟨TimerOperation.delete, t0, i⟩ =
          setTimer e i { e.timers i with state := TimerState.disabled } := by
        simp [nxt_timer_change_apply, hf]
      rw [heq]
      exact wf_setTimer e i _ hwf rfl
  case disable =>
    exact wf_setTimer e i _ hwf rfl

theorem wf_foldl (rs : List ChangeRecord) : ∀ e : Engine, EngineWF e →
    EngineWF (rs.foldl nxt_timer_change_apply e) := by
  induction rs with
  | nil => exact fun e h => h
  | cons r rs ih => exact fun e h => ih _ (wf_apply e r h)

theorem wf_commit (e : Engine) (hwf : EngineWF e) :
    EngineWF (nxt_timer_changes_commit e) :=
  wf_foldl e.changes e hwf

theorem wf_change (e : Engine) (id : TimerId) (op : TimerOperation) (t0 : Nat)
    (hwf : EngineWF e) : EngineWF (nxt_timer_change e id op t0) := by
  unfold nxt_timer_change
  by_cases h : e.mchanges ≤ e.changes.length
  · simp only [if_pos h]
    exact wf_setTimer _ id _ (wf_commit e hwf) rfl
  · simp only [if_neg h]
    exact wf_setTimer e id _ hwf rfl

theorem wf_add (e : Engine) (id : TimerId) (x : Nat) (hwf : EngineWF e) :
    EngineWF (nxt_timer_add e id x) := by
  by_cases h : (e.timers id).state ≠ TimerState.changing ∧
      (e.timers id).in_tree = true ∧
      (nxt_msec_diff (u32 (e.now + x)) (e.timers id).time).natAbs <
        (e.timers id).precision
  · have heq : nxt_timer_add e id x =
        setTimer e id { e.timers id with state := TimerState.waiting } := by
      simp [nxt_timer_add, h]
    rw [heq]
    exact wf_setTimer e id _ hwf rfl
  · rw [add_slow e id x h]
    exact wf_change e id TimerOperation.add (u32 (e.now + x)) hwf

theorem wf_disable (e : Engine) (id : TimerId) (hwf : EngineWF e) :
    EngineWF (nxt_timer_disable e id) := by
  by_cases h : (e.timers id).state ≠ TimerState.changing
  · have heq : nxt_timer_disable e id =
        setTimer e id { e.timers id with state := TimerState.disabled } := by
      simp [nxt_timer_disable, h]
    rw [heq]
    exact wf_setTimer e id _ hwf rfl
  · have heq : nxt_timer_disable e id =
        nxt_timer_change e id TimerOperation.disable 0 := by
      simp [nxt_timer_disable, h]
    rw [heq]
    exact wf_change e id TimerOperation.disable 0 hwf

theorem wf_delete (e : Engine) (id : TimerId) (hwf : EngineWF e) :
    EngineWF (nxt_timer_delete e id).1 := by
  by_cases h : (e.timers id).in_tree = true ∨
      (e.timers id).state = TimerState.changing
  · have heq : (nxt_timer_delete e id).1 =
        nxt_timer_change e id TimerOperation.delete 0 := by
      simp [nxt_timer_delete, h]
    rw [heq]
    exact wf_change e id TimerOperation.delete 0 hwf
  · have heq : (nxt_timer_delete e id).1 =
        setTimer e id { e.timers id with state := TimerState.disabled } := by
      simp [nxt_timer_delete, h]
    rw [heq]
    exact wf_setTimer e id _ hwf rfl

theorem wf_find (e : Engine) (hwf : EngineWF e) :
    EngineWF (nxt_timer_find e).1 := by
  have hcomm : nxt_timer_find e =
      findLoop (nxt_timer_changes_commit e)
        (nxt_timer_changes_commit e).tree := by
    unfold nxt_timer_find
    by_cases h : e.changes.length ≠ 0
    · simp [h]
    · have hempty : e.changes = [] := by simpa using h
      simp only [h, if_neg, ite_false]
      rw [commit_of_empty e hempty]
  have hwfc := wf_commit e hwf
  rw [hcomm]
  rcases hf : (nxt_timer_changes_commit e).tree.find?
      (activeTimer (nxt_timer_changes_commit e)) with _ | id
  · rw [(findLoop_spec (nxt_timer_changes_commit e)
      (nxt_timer_changes_commit e).tree).1 hf]
    exact ⟨hwfc.1, hwfc.2⟩
  · rw [(findLoop_spec (nxt_timer_changes_commit e)
      (nxt_timer_changes_commit e).tree).2 id hf]
    exact ⟨hwfc.1, hwfc.2⟩

theorem wf_expire (e : Engine) (now : Nat) (hwf : EngineWF e) :
    EngineWF (nxt_timer_expire e now) := by
  by_cases h : 0 < nxt_msec_diff e.minimum now
  · rw [expire_of_future e now h]
    exact ⟨hwf.1, hwf.2⟩
  · rw [expire_of_due e now h]
    obtain ⟨htree, _, _, _, _, _, htimers⟩ :=
      expireWalk_spec e.tree { e with now := now }
    have hsplit : e.tree.takeWhile (dueBy { e with now := now }) ++
        e.tree.dropWhile (dueBy { e with now := now }) = e.tree :=
      List.takeWhile_append_dropWhile (dueBy { e with now := now }) e.tree
    have hnd : (e.tree.takeWhile (dueBy { e with now := now }) ++
        e.tree.dropWhile (dueBy { e with now := now })).Nodup := by
      rw [hsplit]
      exact hwf.1
    obtain ⟨hndt, hndd, hdisj⟩ := List.nodup_append.mp hnd
    refine ⟨?_, fun x => ?_⟩
    · rw [htree]
      exact hndd
    · rw [htree, htimers x]
      by_cases hx : x ∈ e.tree.takeWhile (dueBy { e with now := now })
      · rw [if_pos hx]
        have hnin : x ∉ e.tree.dropWhile (dueBy { e with now := now }) :=
          fun hm => hdisj hx hm
        simp [hnin, expireMark_in_tree]
      · rw [if_neg hx]
        have hmm : x ∈ e.tree.dropWhile (dueBy { e with now := now }) ↔
            x ∈ e.tree := by
          constructor
          · intro hm
            rw [← hsplit]
            exact List.mem_append_right _ hm
          · intro hm
            rw [← hsplit] at hm
            rcases List.mem_append.mp hm with hm | hm
            · exact absurd hm hx
            · exact hm
        rw [hmm]
        exact hwf.2 x

/-- C10: the membership invariant — the tree's in-order sequence is
duplicate-free and a timer is linked in the Ordered Timer Index exactly
when its in_tree flag is set — is preserved by every public operation
(Add, Disable, Delete), by a batch commit, by Find-Next-Deadline and by an
expiry pass. -/
theorem c10_membership_invariant (e : Engine) (id : TimerId) (x now : Nat)
    (hwf : EngineWF e) :
    EngineWF (nxt_timer_add e id x) ∧
    EngineWF (nxt_timer_disable e id) ∧
    EngineWF (nxt_timer_delete e id).1 ∧
    EngineWF (nxt_timer_changes_commit e) ∧
    EngineWF (nxt_timer_find e).1 ∧
    EngineWF (nxt_timer_expire e now) :=
  ⟨wf_add e id x hwf, wf_disable e id hwf, wf_delete e id hwf,
   wf_commit e hwf, wf_find e hwf, wf_expire e now hwf⟩

/-- C10 witness: the invariant holds for the one-timer engine and is kept
by the operations on it. -/
theorem c10_membership_invariant_witness :
    EngineWF oneTimerEngine ∧
    EngineWF (nxt_timer_add oneTimerEngine 0 500) ∧
    EngineWF (nxt_timer_expire oneTimerEngine 150) := by
  have hwf : EngineWF oneTimerEngine := by
    constructor
    · simp [oneTimerEngine]
    · intro id
      by_cases h : id = 0 <;> simp [oneTimerEngine, freshTimer, h]
  exact ⟨hwf, (c10_membership_invariant oneTimerEngine 0 500 150 hwf).1,
    (c10_membership_invariant oneTimerEngine 0 500 150 hwf).2.2.2.2.2⟩

/-! Claim C9: batch capacity. -/

theorem find_changes (e : Engine) : (nxt_timer_find e).1.changes = [] := by
  have hcomm : nxt_timer_find e =
      findLoop (nxt_timer_changes_commit e)
        (nxt_timer_changes_commit e).tree := by
    unfold nxt_timer_find
    by_cases h : e.changes.length ≠ 0
    · simp [h]
    · have hempty : e.changes = [] := by simpa using h
      simp only [h, if_neg, ite_false]
      rw [commit_of_empty e hempty]
  rw [hcomm]
  rcases hf : (nxt_timer_changes_commit e).tree.find?
      (activeTimer (nxt_timer_changes_commit e)) with _ | id
  · rw [(findLoop_spec (nxt_timer_changes_commit e)
      (nxt_timer_changes_commit e).tree).1 hf]
    rfl
  · rw [(findLoop_spec (nxt_timer_changes_commit e)
      (nxt_timer_changes_commit e).tree).2 id hf]
    rfl

theorem expire_changes (e : Engine) (now : Nat) :
    (nxt_timer_expire e now).changes = e.changes := by
  by_cases h : 0 < nxt_msec_diff e.minimum now
  · rw [expire_of_future e now h]
  · rw [expire_of_due e now h]
    exact (expireWalk_spec e.tree { e with now := now }).2.2.1

theorem apply_add_flag (e : Engine) (r : ChangeRecord)
    (hadd : r.change = TimerOperation.add) (id : TimerId)
    (hflag : ((e.timers id).in_tree = true)) :
    ((nxt_timer_change_apply e r).timers id).in_tree = true := by
  obtain ⟨op, t0, i⟩ := r
  simp only at hadd
  subst hadd
  by_cases hx : i = id
  · subst hx
    by_cases h1 : (e.timers i).in_tree = true ∧
        (nxt_msec_diff t0 (e.timers i).time).natAbs < (e.timers i).precision
    · simp [nxt_timer_change_apply, h1, setTimer, hflag]
    · by_cases hf : (e.timers i).in_tree = true
      · have h3 : ¬ (nxt_msec_diff t0 (e.timers i).time).natAbs <
            (e.timers i).precision := fun hc => h1 ⟨hf, hc⟩
        simp [nxt_timer_change_apply, h1, hf, h3, setTimer]
      · simp [nxt_timer_change_apply, h1, hf, setTimer]
  · rw [apply_timers_ne e _ id (by simpa using hx)]
    exact hflag

theorem apply_add_self_flag (e : Engine) (t0 : Nat) (id : TimerId) :
    ((nxt_timer_change_apply e
      ⟨TimerOperation.add, t0, id⟩).timers id).in_tree = true := by
  by_cases h1 : (e.timers id).in_tree = true ∧
      (nxt_msec_diff t0 (e.timers id).time).natAbs < (e.timers id).precision
  · simp [nxt_timer_change_apply, h1, setTimer, h1.1]
  · by_cases hf : (e.timers id).in_tree = true
    · have h3 : ¬ (nxt_msec_diff t0 (e.timers id).time).natAbs <
          (e.timers id).precision := fun hc => h1 ⟨hf, hc⟩
      simp [nxt_timer_change_apply, h1, hf, h3, setTimer]
    · simp [nxt_timer_change_apply, h1, hf, setTimer]

theorem foldl_adds_flag (rs : List ChangeRecord)
    (hadds : ∀ r ∈ rs, r.change = TimerOperation.add) (id : TimerId) :
    ∀ e : Engine,
      ((e.timers id).in_tree = true ∨
        ∃ t, (⟨TimerOperation.add, t, id⟩ : ChangeRecord) ∈ rs) →
      ((rs.foldl nxt_timer_change_apply e).timers id).in_tree = true := by
  induction rs with
  | nil =>
      intro e h
      rcases h with h | ⟨t, hmem⟩
      · exact h
      · simp at hmem
  | cons r rs ih =>
      intro e h
      have hadds' : ∀ r' ∈ rs, r'.change = TimerOperation.add :=
        fun r' hm => hadds r' (List.mem_cons_of_mem r hm)
      have hr : r.change = TimerOperation.add :=
        hadds r (List.mem_cons_self r rs)
      rcases h with hflag | ⟨t, hmem⟩
      · exact ih hadds' (nxt_timer_change_apply e r)
          (Or.inl (apply_add_flag e r hr id hflag))
      · rcases List.mem_cons.mp hmem with heq | hmem'
        · refine ih hadds' (nxt_timer_change_apply e r) (Or.inl ?_)
          rw [← heq]
          exact apply_add_self_flag e t id
        · exact ih hadds' (nxt_timer_change_apply e r) (Or.inr ⟨t, hmem'⟩)

theorem commit_adds_in_tree (e : Engine) (hwf : EngineWF e)
    (hadds : ∀ r ∈ e.changes, r.change = TimerOperation.add) (id : TimerId)
    (h : Scheduled id e) :
    ((nxt_timer_changes_commit e).timers id).in_tree = true ∧
      id ∈ (nxt_timer_changes_commit e).tree := by
  have hflag : ((nxt_timer_changes_commit e).timers id).in_tree = true :=
    foldl_adds_flag e.changes hadds id e h
  exact ⟨hflag, ((wf_commit e hwf).2 id).mpr hflag⟩

theorem change_timers_flag (e : Engine) (j : TimerId) (op : TimerOperation)
    (t0 : Nat) (i : TimerId) :
    ((nxt_timer_change e j op t0).timers i).in_tree =
      ((if e.mchanges ≤ e.changes.length then nxt_timer_changes_commit e
        else e).timers i).in_tree := by
  by_cases hflush : e.mchanges ≤ e.changes.length <;>
    by_cases hij : i = j <;>
      simp [nxt_timer_change, hflush, hij, setTimer]

theorem sched_change_add (e : Engine) (i j : TimerId) (t0 : Nat)
    (hadds : ∀ r ∈ e.changes, r.change = TimerOperation.add)
    (h : Scheduled i e) :
    Scheduled i (nxt_timer_change e j TimerOperation.add t0) := by
  by_cases hflush : e.mchanges ≤ e.changes.length
  · left
    rw [change_timers_flag, if_pos hflush]
    exact foldl_adds_flag e.changes hadds i e h
  · rcases h with hflag | ⟨t, hmem⟩
    · left
      rw [change_timers_flag, if_neg hflush]
      exact hflag
    · right
      refine ⟨t, ?_⟩
      rw [change_changes, if_neg hflush]
      exact List.mem_append_left _ hmem

theorem add_fast (e : Engine) (id : TimerId) (x : Nat)
    (h : (e.timers id).state ≠ TimerState.changing ∧
      (e.timers id).in_tree = true ∧
      (nxt_msec_diff (u32 (e.now + x)) (e.timers id).time).natAbs <
        (e.timers id).precision) :
    nxt_timer_add e id x =
      setTimer e id { e.timers id with state := TimerState.waiting } := by
  simp [nxt_timer_add, h]

theorem sched_add (e : Engine) (i j : TimerId) (x : Nat)
    (hadds : ∀ r ∈ e.changes, r.change = TimerOperation.add)
    (h : Scheduled i e) : Scheduled i (nxt_timer_add e j x) := by
  by_cases hc : (e.timers j).state ≠ TimerState.changing ∧
      (e.timers j).in_tree = true ∧
      (nxt_msec_diff (u32 (e.now + x)) (e.timers j).time).natAbs <
        (e.timers j).precision
  · rw [add_fast e j x hc]
    rcases h with hflag | ⟨t, hmem⟩
    · left
      by_cases hij : i = j
      · subst hij
        simp [setTimer]
        exact hflag
      · simp [setTimer, hij]
        exact hflag
    · exact Or.inr ⟨t, hmem⟩
  · rw [add_slow e j x hc]
    exact sched_change_add e i j (u32 (e.now + x)) hadds h

theorem sched_add_self (e : Engine) (j : TimerId) (x : Nat) :
    Scheduled j (nxt_timer_add e j x) := by
  by_cases hc : (e.timers j).state ≠ TimerState.changing ∧
      (e.timers j).in_tree = true ∧
      (nxt_msec_diff (u32 (e.now + x)) (e.timers j).time).natAbs <
        (e.timers j).precision
  · rw [add_fast e j x hc]
    left
    simp [setTimer]
    exact hc.2.1
  · rw [add_slow e j x hc]
    right
    refine ⟨u32 (e.now + x), ?_⟩
    rw [change_changes]
    exact List.mem_append_right _ (by simp)

theorem adds_only_add (e : Engine) (j : TimerId) (x : Nat)
    (hadds : ∀ r ∈ e.changes, r.change = TimerOperation.add) :
    ∀ r ∈ (nxt_timer_add e j x).changes,
      r.change = TimerOperation.add := by
  by_cases hc : (e.timers j).state ≠ TimerState.changing ∧
      (e.timers j).in_tree = true ∧
      (nxt_msec_diff (u32 (e.now + x)) (e.timers j).time).natAbs <
        (e.timers j).precision
  · rw [add_fast e j x hc]
    exact hadds
  · rw [add_slow e j x hc]
    intro r hr
    rw [change_changes] at hr
    rcases List.mem_append.mp hr with hr | hr
    · by_cases hflush : e.mchanges ≤ e.changes.length
      · rw [if_pos hflush, commit_changes] at hr
        simp at hr
      · rw [if_neg hflush] at hr
        exact hadds r hr
    · rw [List.mem_singleton] at hr
      rw [hr]

theorem addFold_spec (tau : TimerId → Nat) (ids : List TimerId) :
    ∀ e : Engine, (∀ r ∈ e.changes, r.change = TimerOperation.add) →
      (∀ r ∈ (addFold tau ids e).changes,
        r.change = TimerOperation.add) ∧
      (∀ i, Scheduled i e → Scheduled i (addFold tau ids e)) ∧
      (∀ i ∈ ids, Scheduled i (addFold tau ids e)) := by
  induction ids with
  | nil =>
      intro e hadds
      exact ⟨hadds, fun i h => h, by simp⟩
  | cons j ids ih =>
      intro e hadds
      have hadds' := adds_only_add e j (tau j) hadds
      obtain ⟨c1, c2, c3⟩ := ih (nxt_timer_add e j (tau j)) hadds'
      refine ⟨c1, ?_, ?_⟩
      · exact fun i hs => c2 i (sched_add e i j (tau j) hadds hs)
      · intro i hi
        rcases List.mem_cons.mp hi with heq | hmem
        · subst heq
          exact c2 i (sched_add_self e i (tau i))
        · exact c3 i hmem

theorem wf_addFold (tau : TimerId → Nat) (ids : List TimerId) :
    ∀ e : Engine, EngineWF e → EngineWF (addFold tau ids e) := by
  induction ids with
  | nil => exact fun e h => h
  | cons j ids ih =>
      exact fun e h => ih (nxt_timer_add e j (tau j)) (wf_add e j (tau j) h)

theorem change_length_le (e : Engine) (id : TimerId) (op : TimerOperation)
    (t0 : Nat) (hcap : 1 ≤ e.mchanges)
    (hlen : e.changes.length ≤ e.mchanges) :
    (nxt_timer_change e id op t0).changes.length ≤ e.mchanges := by
  rw [change_changes]
  by_cases h : e.mchanges ≤ e.changes.length
  · rw [if_pos h, commit_changes]
    simpa using hcap
  · rw [if_neg h, List.length_append]
    simp only [List.length_singleton]
    omega

/-- C9: with capacity at least 1 and a batch within capacity, the slot an
append writes to is strictly inside the capacity (the batch is flushed
first when full), every operation leaves the pending-record count at most
the capacity, and the flush loses nothing: starting from a well-formed
engine with an empty batch, issuing capacity + 1 Add operations on
distinct timers and committing leaves every one of those timers linked in
the index (with its in_tree flag set), the mid-sequence implicit flush
included. -/
theorem c9_batch_capacity (e : Engine) (id : TimerId) (x t0 : Nat)
    (op : TimerOperation) (ids : List TimerId) (tau : TimerId → Nat)
    (hcap : 1 ≤ e.mchanges) (hlen : e.changes.length ≤ e.mchanges) :
    (if e.mchanges ≤ e.changes.length then nxt_timer_changes_commit e
      else e).changes.length < e.mchanges ∧
    (nxt_timer_change e id op t0).changes.length ≤ e.mchanges ∧
    (nxt_timer_add e id x).changes.length ≤ e.mchanges ∧
    (nxt_timer_disable e id).changes.length ≤ e.mchanges ∧
    ((nxt_timer_delete e id).1).changes.length ≤ e.mchanges ∧
    (nxt_timer_changes_commit e).changes.length ≤ e.mchanges ∧
    (nxt_timer_find e).1.changes.length ≤ e.mchanges ∧
    (nxt_timer_expire e x).changes.length ≤ e.mchanges ∧
    (EngineWF e → e.changes = [] → ids.Nodup →
      ids.length = e.mchanges + 1 →
      ∀ i ∈ ids,
        ((nxt_timer_changes_commit (addFold tau ids e)).timers i).in_tree =
          true ∧
        i ∈ (nxt_timer_changes_commit (addFold tau ids e)).tree) := by
  refine ⟨?_, ?_, ?_, ?_, ?_, ?_, ?_, ?_, ?_⟩
  · by_cases h : e.mchanges ≤ e.changes.length
    · rw [if_pos h, commit_changes]
      simpa using hcap
    · rw [if_neg h]
      omega
  · exact change_length_le e id op t0 hcap hlen
  · by_cases hc : (e.timers id).state ≠ TimerState.changing ∧
        (e.timers id).in_tree = true ∧
        (nxt_msec_diff (u32 (e.now + x)) (e.timers id).time).natAbs <
          (e.timers id).precision
    · rw [add_fast e id x hc, setTimer_changes]
      exact hlen
    · rw [add_slow e id x hc]
      exact change_length_le e id TimerOperation.add (u32 (e.now + x))
        hcap hlen
  · by_cases hc : (e.timers id).state ≠ TimerState.changing
    · have heq : nxt_timer_disable e id =
          setTimer e id { e.timers id with state := TimerState.disabled } := by
        simp [nxt_timer_disable, hc]
      rw [heq, setTimer_changes]
      exact hlen
    · have heq : nxt_timer_disable e id =
          nxt_timer_change e id TimerOperation.disable 0 := by
        simp [nxt_timer_disable, hc]
      rw [heq]
      exact change_length_le e id TimerOperation.disable 0 hcap hlen
  · by_cases hc : (e.timers id).in_tree = true ∨
        (e.timers id).state = TimerState.changing
    · have heq : (nxt_timer_delete e id).1 =
          nxt_timer_change e id TimerOperation.delete 0 := by
        simp [nxt_timer_delete, hc]
      rw [heq]
      exact change_length_le e id TimerOperation.delete 0 hcap hlen
    · have heq : (nxt_timer_delete e id).1 =
          setTimer e id { e.timers id with state := TimerState.disabled } := by
        simp [nxt_timer_delete, hc]
      rw [heq, setTimer_changes]
      exact hlen
  · rw [commit_changes]
    simp
  · rw [find_changes]
    simp
  · rw [expire_changes]
    exact hlen
  · intro hwf hb _ _ i hi
    have hadds0 : ∀ r ∈ e.changes, r.change = TimerOperation.add := by
      rw [hb]
      intro r hr
      simp at hr
    obtain ⟨hadds', _, hsched⟩ := addFold_spec tau ids e hadds0
    exact commit_adds_in_tree (addFold tau ids e)
      (wf_addFold tau ids e hwf) hadds' i (hsched i hi)

/-- C9 witness: capacity 1, two distinct fresh timers 0 and 1; after the
two Adds (the second forcing the implicit flush) and the final commit both
timers are in the index. -/
theorem c9_batch_capacity_witness :
    1 ≤ eW9.mchanges ∧ eW9.changes.length ≤ eW9.mchanges ∧
    ([0, 1] : List TimerId).Nodup ∧
    ([0, 1] : List TimerId).length = eW9.mchanges + 1 ∧
    0 ∈ (nxt_timer_changes_commit
      (addFold (fun _ => 100) [0, 1] eW9)).tree ∧
    1 ∈ (nxt_timer_changes_commit
      (addFold (fun _ => 100) [0, 1] eW9)).tree := by
  have hwf : EngineWF eW9 := by
    constructor
    · simp [eW9]
    · intro i
      simp [eW9, freshTimer]
  have happ := (c9_batch_capacity eW9 0 0 0 TimerOperation.add [0, 1]
    (fun _ => 100) (by decide) (by decide)).2.2.2.2.2.2.2.2
  exact ⟨by decide, by decide, by decide, by decide,
    (happ hwf rfl (by decide) (by decide) 0 (by decide)).2,
    (happ hwf rfl (by decide) (by decide) 1 (by decide)).2⟩
